import Mathlib

/-!
Shallow embedding of the CHIP-8 interpreter and time-travel debugger
(`src/architecture/mod.rs`, `src/base/mod.rs`, `src/language/mod.rs`,
`src/emulator/mod.rs`).

Conventions of the embedding:
* `u8`/`u16` values are represented as `Nat`; wrap-around is written with an
  explicit `% 256` / `% 65536` exactly where the Rust code performs wrapping
  arithmetic (`Wrapping<u8>`, `overflowing_add`, ...).
* Arrays indexed by integers become functions `Nat → Nat`; a write is a
  pointwise `if`-update.
* Every Rust panic reachable from `run_instr` / `load_memory` (slice index out
  of bounds, `usize` underflow in `pop_stack`, the `panic!` on `Data`, the
  `todo!()` arms, the oversized-file `panic!`) is modelled as an `Except.error`
  carrying a `Chip8Err` value that names the panic site.  The Rust source has
  no typed error channel: `run_instr` returns `()` and aborts the process on
  these paths.
* `Rand` draws `rand::random::<u8>()`; the random byte is passed to the
  interpreter as an explicit argument `rnd` (taken `% 256`).
-/

namespace Chip8Spec

/-- Panics reachable from the interpreter, reified as error values.
`fileTooBig len max` records the two numbers interpolated in the
`load_memory` panic message (the file length and `Chip8::MEM_SIZE`). -/
inductive Chip8Err where
  | badMemoryAccess : Chip8Err
  | stackUnderflow : Chip8Err
  | stackOverflow : Chip8Err
  | badInstruction : Chip8Err
  | unimplemented : Chip8Err
  | fileTooBig (fileBytes maxBytes : Nat) : Chip8Err
  | emptyHistory : Chip8Err
  deriving DecidableEq, Repr

/-- The machine state (`struct Chip8` in `architecture/mod.rs`).
`memory`, `stack`, `registers` are total functions standing for the fixed
arrays; `screen r c` is the bit at row `r`, column `c`. -/
structure Chip8 where
  memory : Nat → Nat
  i : Nat
  pc : Nat
  sp : Nat
  delay : Nat
  sound : Nat
  stack : Nat → Nat
  registers : Nat → Nat
  screen : Nat → Nat → Bool

/-- `Chip8::MEM_SIZE` -/
def MEM_SIZE : Nat := 4096

/-- `Chip8::CODE_START` -/
def CODE_START : Nat := 0x200

/-- `Screen::NROWS` -/
def NROWS : Nat := 32

/-- `Screen::NCOLS` -/
def NCOLS : Nat := 64

/-- `Chip8::new()` -/
def Chip8.new : Chip8 where
  memory := fun _ => 0
  i := 0
  pc := CODE_START
  sp := 0
  delay := 0
  sound := 0
  stack := fun _ => 0
  registers := fun _ => 0
  screen := fun _ _ => false

/-- The decoded instruction set (`enum Instr` in `language/mod.rs`).
Register identifiers, nibbles and 12-bit addresses all become `Nat`. -/
inductive Instr where
  | System (addr : Nat)
  | Clear
  | Ret
  | Goto (addr : Nat)
  | Call (addr : Nat)
  | SkipEq (r c : Nat)
  | SkipNEq (r c : Nat)
  | SkipEqV (r s : Nat)
  | Set (r a : Nat)
  | Incr (r a : Nat)
  | Copy (r s : Nat)
  | BitOr (r s : Nat)
  | BitAnd (r s : Nat)
  | BitXOr (r s : Nat)
  | Add (r s : Nat)
  | ShiftR (r : Nat)
  | Sub (r s : Nat)
  | Lt (r s : Nat)
  | ShiftL (r : Nat)
  | SkipNEqV (r s : Nat)
  | SetI (n : Nat)
  | Jump (n : Nat)
  | Rand (r n : Nat)
  | Draw (x y height : Nat)
  | Pressed (r : Nat)
  | NotPressed (r : Nat)
  | GetDelay (r : Nat)
  | LoadKey (r : Nat)
  | SetDelayTimer (r : Nat)
  | SetSoundTimer (r : Nat)
  | IncrI (r : Nat)
  | SpriteAddr (r : Nat)
  | StoreBCD (r : Nat)
  | RegDump (x : Nat)
  | RegLoad (x : Nat)
  | Data (n3 n2 n1 n0 : Nat)
  deriving DecidableEq, Repr

/-- `RawInstr::into_instr` (`language/mod.rs`): decode four nibbles.
The match arms are listed in the source order; addresses are packed
big-endian (`mk_un`), the low byte as `k1·16 + k0`. -/
def intoInstr : Nat → Nat → Nat → Nat → Instr
  | 0, 0, 0xE, 0 => .Clear
  | 0, 0, 0xE, 0xE => .Ret
  | 0, a, b, c => .System (a * 256 + b * 16 + c)
  | 1, a, b, c => .Goto (a * 256 + b * 16 + c)
  | 2, a, b, c => .Call (a * 256 + b * 16 + c)
  | 3, x, k1, k0 => .SkipEq x (k1 * 16 + k0)
  | 4, x, k1, k0 => .SkipNEq x (k1 * 16 + k0)
  | 5, x, y, 0 => .SkipEqV x y
  | 6, x, k1, k0 => .Set x (k1 * 16 + k0)
  | 7, x, k1, k0 => .Incr x (k1 * 16 + k0)
  | 8, x, y, 0 => .Copy x y
  | 8, x, y, 1 => .BitOr x y
  | 8, x, y, 2 => .BitAnd x y
  | 8, x, y, 3 => .BitXOr x y
  | 8, x, y, 4 => .Add x y
  | 8, x, y, 5 => .Sub x y
  | 8, x, _, 6 => .ShiftR x
  | 8, x, y, 7 => .Lt x y
  | 8, x, _, 0xE => .ShiftL x
  | 9, x, y, 0 => .SkipNEqV x y
  | 0xA, a, b, c => .SetI (a * 256 + b * 16 + c)
  | 0xB, a, b, c => .Jump (a * 256 + b * 16 + c)
  | 0xC, x, k1, k0 => .Rand x (k1 * 16 + k0)
  | 0xD, x, y, n => .Draw x y n
  | 0xE, x, 9, 0xE => .Pressed x
  | 0xE, x, 0xA, 1 => .NotPressed x
  | 0xF, x, 0, 7 => .GetDelay x
  | 0xF, x, 0, 0xA => .LoadKey x
  | 0xF, x, 1, 5 => .SetDelayTimer x
  | 0xF, x, 1, 8 => .SetSoundTimer x
  | 0xF, x, 1, 0xE => .IncrI x
  | 0xF, x, 2, 9 => .SpriteAddr x
  | 0xF, x, 3, 3 => .StoreBCD x
  | 0xF, x, 5, 5 => .RegDump x
  | 0xF, x, 6, 5 => .RegLoad x
  | a, b, c, d => .Data a b c d

/-- `Chip8::read_instr`: fetch `memory[PC]`, `memory[PC+1]` and decode.
The slice access panics when `PC + 1` is out of memory; the nibble split is
`Nibble::byte_to_nibbles` (`b/16`, `b%16`). -/
def Chip8.read_instr (s : Chip8) : Except Chip8Err Instr :=
  if s.pc + 1 < MEM_SIZE then
    .ok (intoInstr (s.memory s.pc / 16) (s.memory s.pc % 16)
      (s.memory (s.pc + 1) / 16) (s.memory (s.pc + 1) % 16))
  else
    .error .badMemoryAccess

/-- `Chip8::pc_incr` -/
def Chip8.pc_incr (s : Chip8) : Chip8 :=
  { s with pc := s.pc + 2 }

/-- `Chip8::rv`: read a register. -/
def Chip8.rv (s : Chip8) (r : Nat) : Nat :=
  s.registers r

/-- Assignment through `Chip8::v`: write a register. -/
def Chip8.setReg (s : Chip8) (r v : Nat) : Chip8 :=
  { s with registers := fun j => if j = r then v else s.registers j }

/-- A single-cell write to a byte array. -/
def memUpd (m : Nat → Nat) (a v : Nat) : Nat → Nat :=
  fun b => if b = a then v else m b

/-- Most significant bit first (`Msb0`): bit `j` of a byte, `j = 0` being the
top bit, as read by `line.view_bits::<Msb0>()[j]`. -/
def lineBit (line j : Nat) : Bool :=
  line.testBit (7 - j)

/-- `Screen::draw_bit`: XOR the bit at `(row % 32, col % 64)` into the screen;
the second component reports a 1→0 flip. -/
def Screen.draw_bit (sc : Nat → Nat → Bool) (row col : Nat) (b : Bool) :
    (Nat → Nat → Bool) × Bool :=
  let mrow := row % NROWS
  let mcol := col % NCOLS
  let old := sc mrow mcol
  let nw := xor old b
  (fun r c => if r = mrow ∧ c = mcol then nw else sc r c, old && !nw)

/-- The inner `for j in 0..8` loop of the `Draw` arm, unrolled (the Rust loop
bound is the constant 8): draw the eight `Msb0` bits of `line` at columns
`j0 + 0 .. j0 + 7` of row `row`, OR-accumulating the collision flag. -/
def drawLine (sc : Nat → Nat → Bool) (row j0 line : Nat) :
    (Nat → Nat → Bool) × Bool :=
  let r0 := Screen.draw_bit sc row (j0 + 0) (lineBit line 0)
  let r1 := Screen.draw_bit r0.1 row (j0 + 1) (lineBit line 1)
  let r2 := Screen.draw_bit r1.1 row (j0 + 2) (lineBit line 2)
  let r3 := Screen.draw_bit r2.1 row (j0 + 3) (lineBit line 3)
  let r4 := Screen.draw_bit r3.1 row (j0 + 4) (lineBit line 4)
  let r5 := Screen.draw_bit r4.1 row (j0 + 5) (lineBit line 5)
  let r6 := Screen.draw_bit r5.1 row (j0 + 6) (lineBit line 6)
  let r7 := Screen.draw_bit r6.1 row (j0 + 7) (lineBit line 7)
  (r7.1, r0.2 || r1.2 || r2.2 || r3.2 || r4.2 || r5.2 || r6.2 || r7.2)

/-- The outer `for (i, line) in sprite.iter().enumerate()` loop of the `Draw`
arm: draw the lines of the sprite at rows `i0 + idx`, `idx` counting from the
given start index, OR-accumulating the collision flag. -/
def drawLines (i0 j0 : Nat) :
    (Nat → Nat → Bool) → Bool → List Nat → Nat → (Nat → Nat → Bool) × Bool
  | sc, col, [], _ => (sc, col)
  | sc, col, line :: rest, idx =>
      let r := drawLine sc (i0 + idx) j0 line
      drawLines i0 j0 r.1 (col || r.2) rest (idx + 1)

/-- The `i`-th line (i.e. `memory[I + i]`) of the sprite read by `Draw`. -/
def spriteLines (s : Chip8) (height : Nat) : List Nat :=
  (List.range height).map fun k => s.memory (s.i + k)

/-- The `for i in 0..=n` loop of `RegDump`: ascending writes
`memory[i] := V[i]` (note: the index is `i`, not `I + i`). -/
def regDumpMem (regs m : Nat → Nat) : Nat → Nat → Nat
  | 0 => memUpd m 0 (regs 0)
  | n + 1 => memUpd (regDumpMem regs m n) (n + 1) (regs (n + 1))

/-- The `for i in 0..=n` loop of `RegLoad`: ascending writes
`V[i] := memory[i]` (note: the index is `i`, not `I + i`). -/
def regLoadRegs (regs m : Nat → Nat) : Nat → Nat → Nat
  | 0 => fun j => if j = 0 then m 0 else regs j
  | n + 1 => fun j => if j = n + 1 then m (n + 1) else regLoadRegs regs m n j

/-- The dispatch of `Chip8::run_instr` on an already decoded instruction
(`emulator/mod.rs`, the `match i` block).  `rnd` is the byte produced by
`rand::random::<u8>()` for the `Rand` arm.  The `todo!()` arms, the `panic!`
on `Data` and the panicking stack accesses become errors. -/
def Chip8.exec (s : Chip8) (i : Instr) (rnd : Nat) : Except Chip8Err Chip8 :=
  match i with
  | .System _ => .ok s.pc_incr
  | .Clear => .ok ({ s with screen := fun _ _ => false }).pc_incr
  | .Ret =>
      -- pop_stack reads stack[sp - 1]; for sp = 0 the usize subtraction panics
      if 0 < s.sp then
        .ok ({ s with pc := s.stack (s.sp - 1), sp := s.sp - 1 }).pc_incr
      else .error .stackUnderflow
  | .Goto a => .ok { s with pc := a }
  | .Call a =>
      -- push_stack writes stack[sp]; for sp = 16 the index is out of bounds
      if s.sp < 16 then
        .ok { s with stack := fun j => if j = s.sp then s.pc else s.stack j,
                     sp := s.sp + 1, pc := a }
      else .error .stackOverflow
  | .SkipEq r c => .ok (if s.rv r = c then s.pc_incr.pc_incr else s.pc_incr)
  | .SkipNEq r c => .ok (if s.rv r ≠ c then s.pc_incr.pc_incr else s.pc_incr)
  | .SkipEqV r t => .ok (if s.rv r = s.rv t then s.pc_incr.pc_incr else s.pc_incr)
  | .Set r a => .ok ((s.setReg r (a % 256)).pc_incr)
  | .Incr r a => .ok ((s.setReg r ((s.rv r + a) % 256)).pc_incr)
  | .Copy r t => .ok ((s.setReg r (s.rv t)).pc_incr)
  | .BitOr r t => .ok ((s.setReg r (s.rv r ||| s.rv t)).pc_incr)
  | .BitAnd r t => .ok ((s.setReg r (s.rv r &&& s.rv t)).pc_incr)
  | .BitXOr r t => .ok ((s.setReg r (s.rv r ^^^ s.rv t)).pc_incr)
  | .Add r t =>
      -- overflowing_add: value (sum mod 256), flag (sum ≥ 256); V[r] is
      -- written first, VF afterwards
      .ok (((s.setReg r ((s.rv r + s.rv t) % 256)).setReg 15
        (if 256 ≤ s.rv r + s.rv t then 1 else 0)).pc_incr)
  | .ShiftR r =>
      -- overflowing_shr(1) yields (V[r] >> 1, 1 ≥ 8): the flag is always
      -- false, so VF is set to 0 (written before V[r])
      .ok (((s.setReg 15 0).setReg r (s.rv r / 2)).pc_incr)
  | .Sub r t =>
      -- overflowing_sub: value (V[r] − V[t] mod 256), flag (V[r] < V[t]);
      -- VF receives the negated flag, written after V[r]
      .ok (((s.setReg r ((s.rv r + 256 - s.rv t) % 256)).setReg 15
        (if s.rv r < s.rv t then 0 else 1)).pc_incr)
  | .Lt r t =>
      .ok (((s.setReg r ((s.rv t + 256 - s.rv r) % 256)).setReg 15
        (if s.rv t < s.rv r then 0 else 1)).pc_incr)
  | .ShiftL r =>
      -- overflowing_shl(1) yields (V[r] << 1 mod 256, 1 ≥ 8): the flag is
      -- always false, so VF is set to 0 (written before V[r])
      .ok (((s.setReg 15 0).setReg r (s.rv r * 2 % 256)).pc_incr)
  | .SkipNEqV r t => .ok (if s.rv r ≠ s.rv t then s.pc_incr.pc_incr else s.pc_incr)
  | .SetI n => .ok ({ s with i := n }).pc_incr
  | .Jump n => .ok { s with pc := s.rv 0 + n }
  | .Rand r n => .ok ((s.setReg r (n &&& rnd % 256)).pc_incr)
  | .Draw x y height =>
      -- the sprite slice memory[I .. I+height] panics when it leaves memory
      if s.i + height ≤ MEM_SIZE then
        let i0 := s.rv y
        let j0 := s.rv x
        let r := drawLines i0 j0 s.screen false (spriteLines s height) 0
        .ok ((({ s with screen := r.1 }).setReg 15 (if r.2 then 1 else 0)).pc_incr)
      else .error .badMemoryAccess
  | .Pressed _ => .error .unimplemented
  | .NotPressed _ => .error .unimplemented
  | .GetDelay _ => .error .unimplemented
  | .LoadKey _ => .error .unimplemented
  | .SetDelayTimer _ => .error .unimplemented
  | .SetSoundTimer _ => .error .unimplemented
  | .IncrI r => .ok ({ s with i := (s.i + s.rv r) % 65536 }).pc_incr
  | .SpriteAddr _ => .error .unimplemented
  | .StoreBCD r =>
      -- writes memory[I], memory[I+1], memory[I+2]
      if s.i + 2 < MEM_SIZE then
        let v := s.rv r
        let m2 := memUpd (memUpd (memUpd s.memory s.i (v / 10 / 10 % 10))
          (s.i + 1) (v / 10 % 10)) (s.i + 2) (v % 10)
        .ok ({ s with memory := m2 }).pc_incr
      else .error .badMemoryAccess
  | .RegDump x =>
      -- the loop body is memory[i] = V[i]; the I register is not involved
      .ok ({ s with memory := regDumpMem s.registers s.memory x }).pc_incr
  | .RegLoad x =>
      -- the loop body is V[i] = memory[i]; the I register is not involved
      .ok ({ s with registers := regLoadRegs s.registers s.memory x }).pc_incr
  | .Data _ _ _ _ => .error .badInstruction

/-- `Chip8::run_instr`: fetch, decode, dispatch. -/
def Chip8.run_instr (s : Chip8) (rnd : Nat) : Except Chip8Err Chip8 :=
  (s.read_instr).bind fun i => s.exec i rnd

/-- Write a byte list into consecutive memory cells starting at `a`
(the `copy_from_slice` of `load_memory`). -/
def writeBytes (m : Nat → Nat) (a : Nat) : List Nat → Nat → Nat
  | [] => m
  | b :: bs => writeBytes (memUpd m a b) (a + 1) bs

/-- `Chip8::load_memory` with the file contents already read: panics (here:
fails) when `len >= MEM_SIZE - CODE_START`, naming the file length and
`MEM_SIZE` in the message; otherwise copies the bytes to
`memory[CODE_START .. CODE_START + len]`. -/
def Chip8.load_memory (s : Chip8) (bytes : List Nat) : Except Chip8Err Chip8 :=
  if MEM_SIZE - CODE_START ≤ bytes.length then
    .error (.fileTooBig bytes.length MEM_SIZE)
  else
    .ok { s with memory := writeBytes s.memory CODE_START bytes }

/-- `struct Debugger` (`debugger/mod.rs`): snapshot history and cursor. -/
structure Debugger where
  history : List Chip8
  p : Nat

/-- `Debugger::new` -/
def Debugger.new (chip : Chip8) : Debugger :=
  { history := [chip], p := 0 }

/-- `Debugger::peek`: `history[p]` (the default is never reached while
`p < history.length`, the indexing invariant of the source). -/
def Debugger.peek (d : Debugger) : Chip8 :=
  d.history.getD d.p Chip8.new

/-- `Debugger::step_back` -/
def Debugger.step_back (d : Debugger) : Debugger × Bool :=
  if 0 < d.p then ({ d with p := d.p - 1 }, true) else (d, false)

/-- `Debugger::step_forward`: at the end of history, clone the last snapshot,
run one instruction on it and append; then advance the cursor.  A failing
`run_instr` (a panic in the source) propagates before the history push and the
cursor bump. -/
def Debugger.step_forward (d : Debugger) (rnd : Nat) : Except Chip8Err Debugger :=
  if d.p = d.history.length - 1 then
    match d.history.getLast? with
    | none => .error .emptyHistory
    | some last =>
        (last.run_instr rnd).map fun next =>
          { history := d.history ++ [next], p := d.p + 1 }
  else
    .ok { d with p := d.p + 1 }

/-- Iterated `step_forward`, one random byte per step. -/
def Debugger.stepsForward (d : Debugger) : List Nat → Except Chip8Err Debugger
  | [] => .ok d
  | rnd :: rs => (d.step_forward rnd).bind fun d2 => d2.stepsForward rs

/-- Iterated `step_back` (the boolean result is dropped, as in
`App::steps_back`). -/
def Debugger.backN (d : Debugger) : Nat → Debugger
  | 0 => d
  | n + 1 => (d.step_back).1.backN n

/-- Extract the success state of a step (used to name concrete run results in
closed statements). -/
def okOf (e : Except Chip8Err Chip8) : Chip8 :=
  e.toOption.getD Chip8.new

/-- The four instructions whose arm of `run_instr` writes `PC` directly
instead of calling `pc_incr`. -/
def directJump : Instr → Bool
  | .Goto _ => true
  | .Call _ => true
  | .Ret => true
  | .Jump _ => true
  | _ => false

/-! ### Helper lemmas -/

theorem regDumpMem_get (regs m : Nat → Nat) :
    ∀ n i, i ≤ n → regDumpMem regs m n i = regs i := by
  intro n
  induction n with
  | zero => intro i hi; interval_cases i; simp [regDumpMem, memUpd]
  | succ k ih =>
      intro i hi
      by_cases hik : i = k + 1
      · subst hik; simp [regDumpMem, memUpd]
      · have : i ≤ k := by omega
        simp only [regDumpMem, memUpd]
        rw [if_neg hik]
        exact ih i this

theorem regLoadRegs_get (regs m : Nat → Nat) :
    ∀ n i, i ≤ n → regLoadRegs regs m n i = m i := by
  intro n
  induction n with
  | zero => intro i hi; interval_cases i; simp [regLoadRegs]
  | succ k ih =>
      intro i hi
      by_cases hik : i = k + 1
      · subst hik; simp [regLoadRegs]
      · have : i ≤ k := by omega
        simp only [regLoadRegs]
        rw [if_neg hik]
        exact ih i this

theorem writeBytes_low (bs : List Nat) :
    ∀ (m : Nat → Nat) (a b : Nat), b < a → writeBytes m a bs b = m b := by
  induction bs with
  | nil => intro m a b _; rfl
  | cons v bs ih =>
      intro m a b hb
      simp only [writeBytes]
      rw [ih _ _ _ (by omega)]
      simp [memUpd]
      omega

theorem writeBytes_high (bs : List Nat) :
    ∀ (m : Nat → Nat) (a b : Nat), a + bs.length ≤ b → writeBytes m a bs b = m b := by
  induction bs with
  | nil => intro m a b _; rfl
  | cons v bs ih =>
      intro m a b hb
      simp only [writeBytes]
      rw [ih _ _ _ (by simp at hb ⊢; omega)]
      simp only [memUpd]
      rw [if_neg (by simp at hb; omega)]

theorem writeBytes_get (bs : List Nat) :
    ∀ (m : Nat → Nat) (a k : Nat), k < bs.length →
      writeBytes m a bs (a + k) = bs.getD k 0 := by
  induction bs with
  | nil => intro m a k hk; simp at hk
  | cons v bs ih =>
      intro m a k hk
      cases k with
      | zero =>
          simp only [writeBytes]
          rw [writeBytes_low _ _ _ _ (by omega)]
          simp [memUpd]
      | succ q =>
          simp only [writeBytes]
          have : a + (q + 1) = (a + 1) + q := by omega
          rw [this, ih _ _ _ (by simp at hk; omega)]
          simp

/-! ### C1 -/

/-- C1: the claim says `ShiftR`/`ShiftL` put the ejected bit into VF.  The
code computes the flag with `overflowing_shr(1)` / `overflowing_shl(1)`,
whose boolean is `1 ≥ 8` — always false — so VF is set to 0 even when a 1-bit
is shifted out: with `V[0] = 1`, `ShiftR{0}` leaves `VF = 0` (the claim and
the instruction's own doc comment require `VF = 1`), and with `V[0] = 0x80`,
`ShiftL{0}` leaves `VF = 0` as well.  The data parts `V[x] >> 1` and
`(V[x] << 1) mod 256` do hold. -/
theorem C1_shift_flag_is_never_set :
    (okOf ((Chip8.new.setReg 0 1).exec (.ShiftR 0) 0)).registers 15 = 0 ∧
    (okOf ((Chip8.new.setReg 0 1).exec (.ShiftR 0) 0)).registers 0 = 0 ∧
    (okOf ((Chip8.new.setReg 0 128).exec (.ShiftL 0) 0)).registers 15 = 0 ∧
    (okOf ((Chip8.new.setReg 0 128).exec (.ShiftL 0) 0)).registers 0 = 0 :=
  ⟨rfl, rfl, rfl, rfl⟩

/-! ### C2 -/

/-- C2: the claim says step errors are returned to the debugger as typed
failure values.  In the source they are all process-terminating panics
(`pop_stack` underflows `usize`, `push_stack` indexes `stack[16]`, `Data`
hits `panic!`, the keypad/timer opcodes hit `todo!()`), and
`Debugger::step_forward` has no failure path at all.  This theorem evaluates
the embedding (which reifies those panics as `Chip8Err` values) on each
failing input named by the claim. -/
theorem C2_step_failures_are_panics :
    Chip8.new.exec .Ret 0 = .error .stackUnderflow ∧
    ({ Chip8.new with sp := 16 } : Chip8).exec (.Call 0x300) 0 = .error .stackOverflow ∧
    Chip8.new.exec (.Data 0xF 0xF 0xF 0xF) 0 = .error .badInstruction ∧
    Chip8.new.exec (.Pressed 0) 0 = .error .unimplemented ∧
    Chip8.new.exec (.SetDelayTimer 0) 0 = .error .unimplemented :=
  ⟨rfl, rfl, rfl, rfl, rfl⟩

/-! ### C4 -/

/-- C4: the claim says `RegDump{x}` writes `V[i]` to `memory[I+i]` (and
`RegLoad{x}` reads from there).  The loop in the code indexes `memory[i]`,
never adding `I`: with `I = 0x300` and `V[0] = 7`, `RegDump{0}` writes 7 to
`memory[0]` and leaves `memory[0x300]` untouched, contradicting the claim and
the instruction's own doc comment (`mem[I] = V0, ..`).  `I` itself is indeed
unchanged. -/
theorem C4_regdump_ignores_index_register :
    (okOf ((({ Chip8.new with i := 0x300 } : Chip8).setReg 0 7).exec
      (.RegDump 0) 0)).memory 0 = 7 ∧
    (okOf ((({ Chip8.new with i := 0x300 } : Chip8).setReg 0 7).exec
      (.RegDump 0) 0)).memory 0x300 = 0 ∧
    (okOf ((({ Chip8.new with i := 0x300 } : Chip8).setReg 0 7).exec
      (.RegDump 0) 0)).i = 0x300 :=
  ⟨rfl, rfl, rfl⟩

/-! ### C5 -/

/-- C5 counterexample: the PC range invariant is not preserved.  Loading the
two-byte program `0x11 0x00` (`Goto 0x100`) into a fresh machine and taking
one successful step sets `PC = 0x100 < 0x200`, so a reachable state violates
`0x200 ≤ PC`. -/
theorem C5_counterexample :
    ((Chip8.new.load_memory [0x11, 0x00]).bind (fun t => t.run_instr 0)).map
      Chip8.pc = .ok 0x100 ∧ 0x100 < CODE_START := by
  constructor
  · rfl
  · decide

/-- C5 amended: the range/evenness invariant fails (`Goto`, `Call`, `Jump`
and `Ret` write PC directly, to targets that may be odd or below 0x200); what
the code does guarantee is that every successfully executed instruction other
than those four advances PC by exactly 2 or by exactly 4, so such
instructions preserve the parity of PC. -/
theorem C5_nonjump_pc_increment (s : Chip8) (i : Instr) (rnd : Nat) (s2 : Chip8)
    (hd : directJump i = false) (h : s.exec i rnd = .ok s2) :
    s2.pc = s.pc + 2 ∨ s2.pc = s.pc + 4 := by
  cases i <;> simp only [directJump] at hd <;>
    first
      | exact absurd hd (by decide)
      | (simp only [Chip8.exec] at h
         repeat split at h
         all_goals
           first
             | exact Except.noConfusion h
             | (simp only [Except.ok.injEq] at h
                subst h
                simp [Chip8.pc_incr, Chip8.setReg]
                try omega))

/-- Witness for the amended C5 theorem at `Set{0, 5}` on a fresh machine. -/
theorem C5_nonjump_pc_increment_witness :
    directJump (.Set 0 5) = false ∧
    ((okOf (Chip8.new.exec (.Set 0 5) 0)).pc = Chip8.new.pc + 2 ∨
     (okOf (Chip8.new.exec (.Set 0 5) 0)).pc = Chip8.new.pc + 4) :=
  ⟨rfl, C5_nonjump_pc_increment Chip8.new (.Set 0 5) 0 _ rfl rfl⟩

/-! ### C6 -/

/-- C6 counterexample: the claim says a program of length exactly
3584 (= 4096 − 0x200) loads successfully.  The code rejects it: the guard is
`len >= MEM_SIZE - CODE_START`, and the panic message names the file size and
`MEM_SIZE` (4096), not the limit 3584. -/
theorem C6_counterexample :
    Chip8.new.load_memory (List.replicate 3584 0) =
      .error (.fileTooBig 3584 4096) := by
  simp only [Chip8.load_memory, List.length_replicate, MEM_SIZE, CODE_START]
  rw [if_pos (by norm_num)]

/-- C6 amended: `load_memory` succeeds and copies the program image to
`memory[0x200 .. 0x200+len]` exactly when `len < 3584`; a length of 3584 or
more fails, with a message naming the file size and the full memory size
4096 (not the limit 3584). -/
theorem C6_load_memory_behavior (s : Chip8) (bytes : List Nat) :
    (∀ t, s.load_memory bytes = .ok t →
      bytes.length < 3584 ∧
      (∀ k, k < bytes.length → t.memory (CODE_START + k) = bytes.getD k 0) ∧
      (∀ a, a < CODE_START → t.memory a = s.memory a) ∧
      (∀ a, CODE_START + bytes.length ≤ a → t.memory a = s.memory a)) ∧
    (3584 ≤ bytes.length →
      s.load_memory bytes = .error (.fileTooBig bytes.length MEM_SIZE)) ∧
    (bytes.length < 3584 → ∃ t, s.load_memory bytes = .ok t) := by
  refine ⟨?_, ?_, ?_⟩
  · intro t ht
    simp only [Chip8.load_memory, MEM_SIZE, CODE_START] at ht
    split at ht
    · exact absurd ht (by simp)
    · rename_i hlen
      have hlt : bytes.length < 3584 := by omega
      simp only [Except.ok.injEq] at ht
      subst ht
      refine ⟨hlt, ?_, ?_, ?_⟩
      · intro k hk
        simpa using writeBytes_get bytes s.memory 512 k hk
      · intro a ha
        simpa using writeBytes_low bytes s.memory 512 a (by simpa using ha)
      · intro a ha
        simpa using writeBytes_high bytes s.memory 512 a (by simpa using ha)
  · intro hlen
    simp only [Chip8.load_memory, MEM_SIZE, CODE_START]
    rw [if_pos (by omega)]
  · intro hlen
    refine ⟨{ s with memory := writeBytes s.memory CODE_START bytes }, ?_⟩
    simp only [Chip8.load_memory]
    rw [if_neg (by simp only [MEM_SIZE, CODE_START]; omega)]

/-- Witness for the amended C6 theorem: a one-byte program loads into
`memory[0x200]`, and a 3584-byte program fails naming 3584 and 4096. -/
theorem C6_load_memory_behavior_witness :
    (okOf (Chip8.new.load_memory [7])).memory (CODE_START + 0) = 7 ∧
    Chip8.new.load_memory (List.replicate 3584 0) =
      .error (.fileTooBig 3584 MEM_SIZE) := by
  refine ⟨?_, ?_⟩
  · have h := (C6_load_memory_behavior Chip8.new [7]).1
      (okOf (Chip8.new.load_memory [7])) rfl
    simpa using h.2.1 0 (by decide)
  · have h := (C6_load_memory_behavior Chip8.new (List.replicate 3584 0)).2.1
      (by norm_num [List.length_replicate])
    rw [List.length_replicate] at h
    exact h

/-! ### C7 -/

/-- C7: `Add{x,y}` stores `(V[x]+V[y]) mod 256` into `V[x]` and then writes
the carry (`1` iff the true sum is at least 256) into VF; because the flag
write happens after the data write, when `x = 15` the final VF is the carry
flag.  The first conjunct holds for every `x`, including `x = 15`. -/
theorem C7_add_carry (s : Chip8) (x y rnd : Nat) (s2 : Chip8)
    (hx : x < 16) (hy : y < 16)
    (h : s.exec (.Add x y) rnd = .ok s2) :
    s2.registers 15 = (if 256 ≤ s.registers x + s.registers y then 1 else 0) ∧
    (x ≠ 15 → s2.registers x = (s.registers x + s.registers y) % 256) := by
  simp only [Chip8.exec, Except.ok.injEq] at h
  subst h
  constructor
  · simp [Chip8.pc_incr, Chip8.setReg, Chip8.rv]
  · intro hx15
    simp [Chip8.pc_incr, Chip8.setReg, Chip8.rv, hx15]

/-- Witness for C7 at `V[0] = 255`, `V[1] = 1`: the sum wraps to 0 and the
carry lands in VF. -/
theorem C7_add_carry_witness :
    ((Chip8.new.setReg 0 255).setReg 1 1).exec (.Add 0 1) 0 =
      .ok (okOf (((Chip8.new.setReg 0 255).setReg 1 1).exec (.Add 0 1) 0)) ∧
    (okOf (((Chip8.new.setReg 0 255).setReg 1 1).exec (.Add 0 1) 0)).registers 15 =
      (if 256 ≤ ((Chip8.new.setReg 0 255).setReg 1 1).registers 0 +
        ((Chip8.new.setReg 0 255).setReg 1 1).registers 1 then 1 else 0) ∧
    ((0 : Nat) ≠ 15 →
      (okOf (((Chip8.new.setReg 0 255).setReg 1 1).exec (.Add 0 1) 0)).registers 0 =
      (((Chip8.new.setReg 0 255).setReg 1 1).registers 0 +
        ((Chip8.new.setReg 0 255).setReg 1 1).registers 1) % 256) := by
  refine ⟨rfl, ?_⟩
  exact C7_add_carry ((Chip8.new.setReg 0 255).setReg 1 1) 0 1 0 _
    (by decide) (by decide) rfl

/-! ### C8 -/

/-- C8: `RegDump{x}` followed by `RegLoad{x}` restores `V0..=Vx`.  (In this
code both loops use plain index `i` — the value of `I`, which is threaded
through unchanged, plays no role at all, so the "same I in between" side
condition of the claim holds automatically.) -/
theorem C8_regdump_regload_roundtrip (s : Chip8) (x rnd1 rnd2 : Nat) (t u : Chip8)
    (h1 : s.exec (.RegDump x) rnd1 = .ok t)
    (h2 : t.exec (.RegLoad x) rnd2 = .ok u)
    (i : Nat) (hi : i ≤ x) :
    u.registers i = s.registers i := by
  simp only [Chip8.exec, Except.ok.injEq] at h1 h2
  subst h1
  subst h2
  simp only [Chip8.pc_incr]
  rw [regLoadRegs_get _ _ _ _ hi, regDumpMem_get _ _ _ _ hi]

/-- Witness for C8: dump/load of `V0` on a fresh machine. -/
theorem C8_regdump_regload_roundtrip_witness :
    Chip8.new.exec (.RegDump 0) 0 = .ok (okOf (Chip8.new.exec (.RegDump 0) 0)) ∧
    (okOf (Chip8.new.exec (.RegDump 0) 0)).exec (.RegLoad 0) 0 =
      .ok (okOf ((okOf (Chip8.new.exec (.RegDump 0) 0)).exec (.RegLoad 0) 0)) ∧
    (0 : Nat) ≤ 0 ∧
    (okOf ((okOf (Chip8.new.exec (.RegDump 0) 0)).exec (.RegLoad 0) 0)).registers 0 =
      Chip8.new.registers 0 :=
  ⟨rfl, rfl, Nat.le_refl 0,
    C8_regdump_regload_roundtrip Chip8.new 0 0 0 _ _ rfl rfl 0 (Nat.le_refl 0)⟩

/-! ### C10 -/

/-- C10: `Set`, `Incr`, `Copy`, `BitOr`, `BitAnd` and `BitXOr` change only
`V[x]` and `PC` (which advances by exactly 2): memory, `I`, `SP`, the stack,
the screen, both timers and every register with index other than `x` —
including VF whenever `x ≠ 15` — are unchanged. -/
theorem C10_register_ops_frame (s : Chip8) (rnd x y kk : Nat) (i : Instr) (s2 : Chip8)
    (hi : i = .Set x kk ∨ i = .Incr x kk ∨ i = .Copy x y ∨ i = .BitOr x y ∨
      i = .BitAnd x y ∨ i = .BitXOr x y)
    (h : s.exec i rnd = .ok s2) :
    s2.memory = s.memory ∧ s2.i = s.i ∧ s2.sp = s.sp ∧ s2.stack = s.stack ∧
    s2.screen = s.screen ∧ s2.delay = s.delay ∧ s2.sound = s.sound ∧
    s2.pc = s.pc + 2 ∧ ∀ j, j ≠ x → s2.registers j = s.registers j := by
  rcases hi with rfl | rfl | rfl | rfl | rfl | rfl <;>
    (simp only [Chip8.exec, Except.ok.injEq] at h
     subst h
     refine ⟨rfl, rfl, rfl, rfl, rfl, rfl, rfl, rfl, ?_⟩
     intro j hj
     simp [Chip8.pc_incr, Chip8.setReg, hj])

/-- Witness for C10 at `Set{0, 5}` on a fresh machine, checking the PC
increment and that `V[15]` (VF) is untouched. -/
theorem C10_register_ops_frame_witness :
    ((Instr.Set 0 5) = Instr.Set 0 5 ∨ (Instr.Set 0 5) = Instr.Incr 0 5 ∨
     (Instr.Set 0 5) = Instr.Copy 0 1 ∨ (Instr.Set 0 5) = Instr.BitOr 0 1 ∨
     (Instr.Set 0 5) = Instr.BitAnd 0 1 ∨ (Instr.Set 0 5) = Instr.BitXOr 0 1) ∧
    Chip8.new.exec (.Set 0 5) 0 = .ok (okOf (Chip8.new.exec (.Set 0 5) 0)) ∧
    (okOf (Chip8.new.exec (.Set 0 5) 0)).pc = Chip8.new.pc + 2 ∧
    (okOf (Chip8.new.exec (.Set 0 5) 0)).registers 15 = Chip8.new.registers 15 := by
  have H := C10_register_ops_frame Chip8.new 0 0 1 5 (.Set 0 5)
    (okOf (Chip8.new.exec (.Set 0 5) 0)) (Or.inl rfl) rfl
  exact ⟨Or.inl rfl, rfl, H.2.2.2.2.2.2.2.1, H.2.2.2.2.2.2.2.2 15 (by decide)⟩

/-! ### C9 -/

theorem cons_getLast?_ne_none (a : Chip8) (l : List Chip8) :
    (a :: l).getLast? ≠ none := by
  induction l generalizing a with
  | nil => simp
  | cons b l ih => rw [List.getLast?_cons_cons]; exact ih b

/-- Invariant of a forward run from a debugger whose cursor sits at the end
of history: the cursor stays at the end, the first snapshot is preserved, and
the cursor advances once per step. -/
theorem stepsForward_invariant (c : Chip8) :
    ∀ (rs : List Nat) (d0 d : Debugger),
      d0.p + 1 = d0.history.length → d0.history.head? = some c →
      d0.stepsForward rs = .ok d →
      d.p + 1 = d.history.length ∧ d.history.head? = some c ∧
        d.p = d0.p + rs.length := by
  intro rs
  induction rs with
  | nil =>
      intro d0 d h1 h2 h
      simp only [Debugger.stepsForward, Except.ok.injEq] at h
      subst h
      exact ⟨h1, h2, by simp⟩
  | cons rnd rs ih =>
      intro d0 d h1 h2 h
      simp only [Debugger.stepsForward] at h
      cases hsf : d0.step_forward rnd with
      | error e => rw [hsf] at h; simp [Except.bind] at h
      | ok d1 =>
          rw [hsf] at h
          simp only [Except.bind] at h
          obtain ⟨tl, htl⟩ : ∃ tl, d0.history = c :: tl := by
            cases hh : d0.history with
            | nil => rw [hh] at h2; exact absurd h2 (by simp)
            | cons a tl =>
                rw [hh] at h2
                simp only [List.head?_cons, Option.some.injEq] at h2
                exact ⟨tl, by rw [h2]⟩
          have hp0 : d0.p = d0.history.length - 1 := by omega
          simp only [Debugger.step_forward] at hsf
          rw [if_pos hp0] at hsf
          cases hgl : d0.history.getLast? with
          | none => rw [htl] at hgl; exact absurd hgl (cons_getLast?_ne_none c tl)
          | some last =>
              rw [hgl] at hsf
              simp only at hsf
              cases hri : last.run_instr rnd with
              | error e => rw [hri] at hsf; simp [Except.map] at hsf
              | ok next =>
                  rw [hri] at hsf
                  simp only [Except.map, Except.ok.injEq] at hsf
                  have hp1 : d1.p = d0.p + 1 := by rw [← hsf]
                  have hh1 : d1.history = d0.history ++ [next] := by rw [← hsf]
                  have inv1 : d1.p + 1 = d1.history.length := by
                    rw [hp1, hh1]
                    simp only [List.length_append, List.length_cons,
                      List.length_nil]
                    omega
                  have inv2 : d1.history.head? = some c := by
                    rw [hh1, htl]
                    simp only [List.cons_append, List.head?_cons]
                  have hrec := ih d1 d inv1 inv2 h
                  refine ⟨hrec.1, hrec.2.1, ?_⟩
                  have h3 := hrec.2.2
                  rw [hp1] at h3
                  simp only [List.length_cons]
                  omega

/-- Stepping back `n` times from cursor position `n` lands on cursor 0 with
the history untouched. -/
theorem backN_reaches_zero :
    ∀ (n : Nat) (d : Debugger), d.p = n →
      (d.backN n).history = d.history ∧ (d.backN n).p = 0 := by
  intro n
  induction n with
  | zero => intro d h; exact ⟨rfl, h⟩
  | succ k ih =>
      intro d h
      simp only [Debugger.backN, Debugger.step_back]
      rw [if_pos (by omega)]
      exact ih _ (by simp [h])

/-- C9: on a freshly created debugger, if `n` forward steps all succeed
(for any sequence of random draws `rs`, `n = rs.length`), then `n` backward
steps return the visible snapshot `peek()` to the initial machine, which is
history index 0. -/
theorem C9_forward_back_roundtrip (c : Chip8) (rs : List Nat) (d : Debugger)
    (h : (Debugger.new c).stepsForward rs = .ok d) :
    (d.backN rs.length).peek = c := by
  have hinv := stepsForward_invariant c rs (Debugger.new c) d
    (by simp [Debugger.new]) (by simp [Debugger.new]) h
  obtain ⟨h1, h2, h3⟩ := hinv
  have hb := backN_reaches_zero rs.length d
    (by simp only [Debugger.new] at h3; omega)
  obtain ⟨hb1, hb2⟩ := hb
  unfold Debugger.peek
  rw [hb1, hb2]
  cases hh : d.history with
  | nil => rw [hh] at h2; exact absurd h2 (by simp)
  | cons a tl =>
      rw [hh] at h2
      simp only [List.head?_cons, Option.some.injEq] at h2
      simp [h2]

/-- Witness for C9: one successful forward step (the fresh machine executes
`System 0`, a no-op) followed by one backward step shows the initial
snapshot again. -/
theorem C9_forward_back_roundtrip_witness :
    (Debugger.new Chip8.new).stepsForward [0] =
      .ok (((Debugger.new Chip8.new).stepsForward [0]).toOption.getD
        (Debugger.new Chip8.new)) ∧
    (((((Debugger.new Chip8.new).stepsForward [0]).toOption.getD
      (Debugger.new Chip8.new)).backN [0].length).peek = Chip8.new) :=
  ⟨rfl, C9_forward_back_roundtrip Chip8.new [0] _ rfl⟩

/-! ### C3 -/

theorem draw_bit_preserves_row (sc : Nat → Nat → Bool) (row col : Nat) (b : Bool)
    (r c : Nat) (h : r ≠ row % NROWS) :
    (Screen.draw_bit sc row col b).1 r c = sc r c := by
  simp only [Screen.draw_bit]
  rw [if_neg]
  intro hc
  exact h hc.1

theorem draw_bit_preserves_col (sc : Nat → Nat → Bool) (row col : Nat) (b : Bool)
    (r c : Nat) (h : c ≠ col % NCOLS) :
    (Screen.draw_bit sc row col b).1 r c = sc r c := by
  simp only [Screen.draw_bit]
  rw [if_neg]
  intro hc
  exact h hc.2

theorem draw_bit_hit (sc : Nat → Nat → Bool) (row col : Nat) (b : Bool) :
    (Screen.draw_bit sc row col b).1 (row % NROWS) (col % NCOLS)
      = xor (sc (row % NROWS) (col % NCOLS)) b := by
  simp [Screen.draw_bit]

theorem drawLine_preserves_row (sc : Nat → Nat → Bool) (row j0 line : Nat)
    (r c : Nat) (h : r ≠ row % NROWS) :
    (drawLine sc row j0 line).1 r c = sc r c := by
  simp only [drawLine]
  rw [draw_bit_preserves_row _ _ _ _ _ _ h, draw_bit_preserves_row _ _ _ _ _ _ h,
    draw_bit_preserves_row _ _ _ _ _ _ h, draw_bit_preserves_row _ _ _ _ _ _ h,
    draw_bit_preserves_row _ _ _ _ _ _ h, draw_bit_preserves_row _ _ _ _ _ _ h,
    draw_bit_preserves_row _ _ _ _ _ _ h, draw_bit_preserves_row _ _ _ _ _ _ h]

theorem drawLine_hit (sc : Nat → Nat → Bool) (row j0 line : Nat) (j : Nat)
    (hj : j < 8) :
    (drawLine sc row j0 line).1 (row % NROWS) ((j0 + j) % NCOLS)
      = xor (sc (row % NROWS) ((j0 + j) % NCOLS)) (lineBit line j) := by
  interval_cases j <;>
    (simp only [drawLine]
     repeat
       first
         | rw [draw_bit_hit]
         | rw [draw_bit_preserves_col _ _ _ _ _ _ (by simp only [NCOLS]; omega)])

theorem drawLines_preserves_row (i0 j0 : Nat) :
    ∀ (ls : List Nat) (idx : Nat) (sc : Nat → Nat → Bool) (col : Bool) (r c : Nat),
      (∀ q, q < ls.length → r ≠ (i0 + (idx + q)) % NROWS) →
      (drawLines i0 j0 sc col ls idx).1 r c = sc r c := by
  intro ls
  induction ls with
  | nil => intro idx sc col r c _; rfl
  | cons line rest ih =>
      intro idx sc col r c h
      have hrest : ∀ q, q < rest.length → r ≠ (i0 + ((idx + 1) + q)) % NROWS := by
        intro q hq
        have h2 := h (q + 1) (by simp only [List.length_cons]; omega)
        have e : idx + 1 + q = idx + (q + 1) := by omega
        rw [e]
        exact h2
      have hhead : r ≠ (i0 + idx) % NROWS := by
        have h0 := h 0 (by simp only [List.length_cons]; omega)
        simpa using h0
      simp only [drawLines]
      rw [ih (idx + 1) _ _ r c hrest]
      exact drawLine_preserves_row _ _ _ _ _ _ hhead

theorem drawLines_hit (i0 j0 : Nat) :
    ∀ (ls : List Nat) (idx pos : Nat) (sc : Nat → Nat → Bool) (col : Bool) (j : Nat),
      pos < ls.length → j < 8 →
      (∀ q, q < ls.length → q ≠ pos →
        (i0 + (idx + pos)) % NROWS ≠ (i0 + (idx + q)) % NROWS) →
      (drawLines i0 j0 sc col ls idx).1
          ((i0 + (idx + pos)) % NROWS) ((j0 + j) % NCOLS)
        = xor (sc ((i0 + (idx + pos)) % NROWS) ((j0 + j) % NCOLS))
              (lineBit (ls.getD pos 0) j) := by
  intro ls
  induction ls with
  | nil => intro idx pos sc col j hpos; simp at hpos
  | cons line rest ih =>
      intro idx pos sc col j hpos hj hdist
      cases pos with
      | zero =>
          simp only [drawLines, List.getD_cons_zero, Nat.add_zero]
          have hrest : ∀ q, q < rest.length →
              (i0 + idx) % NROWS ≠ (i0 + ((idx + 1) + q)) % NROWS := by
            intro q hq
            have h2 := hdist (q + 1) (by simp only [List.length_cons]; omega)
              (by omega)
            have e1 : idx + 1 + q = idx + (q + 1) := by omega
            have e2 : idx + 0 = idx := by omega
            rw [e1]
            rw [e2] at h2
            exact h2
          rw [drawLines_preserves_row i0 j0 rest (idx + 1) _ _ _ _ hrest]
          exact drawLine_hit _ _ _ _ _ hj
      | succ p =>
          simp only [drawLines, List.getD_cons_succ]
          have hdist2 : ∀ q, q < rest.length → q ≠ p →
              (i0 + ((idx + 1) + p)) % NROWS ≠ (i0 + ((idx + 1) + q)) % NROWS := by
            intro q hq hqp
            have h2 := hdist (q + 1) (by simp only [List.length_cons]; omega)
              (by omega)
            have e1 : idx + 1 + p = idx + (p + 1) := by omega
            have e2 : idx + 1 + q = idx + (q + 1) := by omega
            rw [e1, e2]
            exact h2
          have hpos2 : p < rest.length := by
            simp only [List.length_cons] at hpos
            omega
          have hres := ih (idx + 1) p (drawLine sc (i0 + idx) j0 line).1
            (col || (drawLine sc (i0 + idx) j0 line).2) j hpos2 hj hdist2
          have e : idx + (p + 1) = (idx + 1) + p := by omega
          rw [e, hres]
          have hhead : (i0 + ((idx + 1) + p)) % NROWS ≠ (i0 + idx) % NROWS := by
            have h2 := hdist 0 (by simp only [List.length_cons]; omega) (by omega)
            have e1 : idx + (p + 1) = idx + 1 + p := by omega
            have e2 : idx + 0 = idx := by omega
            rw [e1, e2] at h2
            exact h2
          rw [drawLine_preserves_row _ _ _ _ _ _ hhead]

theorem spriteLines_getD (s : Chip8) (height i : Nat) (hi : i < height) :
    (spriteLines s height).getD i 0 = s.memory (s.i + i) := by
  simp [spriteLines, List.getD, hi]

/-- Concrete state for the C3 counterexample: a two-row all-ones sprite at
`memory[0x300..0x301]`, `I = 0x300`, origin `V[0] = 0` (column), `V[1] = 31`
(row): the sprite's second row lands at row 32. -/
def c3mem : Nat → Nat :=
  memUpd (memUpd Chip8.new.memory 0x300 0xFF) 0x301 0xFF

/-- The machine the C3 counterexample draws on. -/
def c3state : Chip8 :=
  ({ Chip8.new with i := 0x300, memory := c3mem } : Chip8).setReg 1 31

/-- C3 counterexample: the claim says a sprite pixel whose row `r0 + i`
exceeds 31 is clipped (dropped), so `Draw{0,1,2}` from row origin 31 must
leave row 0 untouched.  The code instead reduces every pixel position modulo
the screen size (`draw_bit` takes `row % 32`, `col % 64`), so the second
sprite row wraps to the top: the pixel at `(0,0)` flips from unset to set. -/
theorem C3_counterexample :
    (okOf (c3state.exec (.Draw 0 1 2) 0)).screen 0 0 = true ∧
    c3state.screen 0 0 = false := by
  constructor
  · rfl
  · rfl

/-- C3 amended: no pixel is clipped; instead each sprite pixel `(i, j)` is
drawn (XORed) at the wrapped position `((V[y]+i) mod 32, (V[x]+j) mod 64)`.
The sprite height is at most 15 (a nibble), which makes the per-pixel target
cells distinct, so the final value of each target cell is the old value XOR
the sprite bit. -/
theorem C3_draw_wraps_per_pixel (s : Chip8) (x y height rnd : Nat) (s2 : Chip8)
    (hh : height ≤ 15)
    (h : s.exec (.Draw x y height) rnd = .ok s2)
    (i j : Nat) (hi : i < height) (hj : j < 8) :
    s2.screen ((s.registers y + i) % NROWS) ((s.registers x + j) % NCOLS)
      = xor (s.screen ((s.registers y + i) % NROWS) ((s.registers x + j) % NCOLS))
            (lineBit (s.memory (s.i + i)) j) := by
  simp only [Chip8.exec] at h
  split at h
  · simp only [Except.ok.injEq] at h
    subst h
    simp only [Chip8.pc_incr, Chip8.setReg, Chip8.rv]
    have hlen : i < (spriteLines s height).length := by
      simp only [spriteLines, List.length_map, List.length_range]
      exact hi
    have hdist : ∀ q, q < (spriteLines s height).length → q ≠ i →
        (s.registers y + (0 + i)) % NROWS ≠ (s.registers y + (0 + q)) % NROWS := by
      intro q hq hqi
      simp only [spriteLines, List.length_map, List.length_range] at hq
      simp only [NROWS]
      omega
    have hmain := drawLines_hit (s.registers y) (s.registers x)
      (spriteLines s height) 0 i s.screen false j hlen hj hdist
    rw [spriteLines_getD s height i hi] at hmain
    simpa using hmain
  · exact Except.noConfusion h

/-- Witness for the amended C3 theorem: drawing a one-line sprite of zeros on
a fresh machine leaves the (wrapped) target pixel equal to its old value XOR
a zero bit. -/
theorem C3_draw_wraps_per_pixel_witness :
    Chip8.new.exec (.Draw 0 0 1) 0 = .ok (okOf (Chip8.new.exec (.Draw 0 0 1) 0)) ∧
    (okOf (Chip8.new.exec (.Draw 0 0 1) 0)).screen
        ((Chip8.new.registers 0 + 0) % NROWS) ((Chip8.new.registers 0 + 0) % NCOLS)
      = xor (Chip8.new.screen ((Chip8.new.registers 0 + 0) % NROWS)
          ((Chip8.new.registers 0 + 0) % NCOLS))
          (lineBit (Chip8.new.memory (Chip8.new.i + 0)) 0) :=
  ⟨rfl, C3_draw_wraps_per_pixel Chip8.new 0 0 1 0 _ (by decide) rfl 0 0
    (by decide) (by decide)⟩

end Chip8Spec
